import Mathlib

/-!
Verification of the topic-assignment program (`main.py`).

The program resolves free-text preference tokens against a topic list with a
fuzzy-similarity policy, parses a line-oriented preference file with a small
state machine, converts rank lists to cardinal weights, and computes an optimal
one-to-one assignment of participants to topics.

Modelling conventions:
* Python machine floats (Jaro-Winkler scores, thresholds) are modelled as `ℚ`.
* The external similarity metric (`jellyfish.jaro_winkler`) is a parameter
  `jw : String → String → ℚ` of every definition that scores strings.
* Python dicts are modelled as association lists built in insertion order;
  `dict.get(k, 0)` is modelled by `wget` (last binding wins, default `0`).
* The external optimal-assignment engine (`ortools` `LinearSumAssignment`) is
  modelled from the spec: a minimum-cost perfect matching obtained by exhaustive
  minimisation over all row-to-column bijections.
* `random.shuffle` is modelled by quantifying over an arbitrary permutation
  `order` of the participant list.
-/

/-- Python's ASCII whitespace characters, as tested by `str.isspace`/`str.strip`
on the ASCII inputs this program handles. -/
def pyWhite (c : Char) : Bool :=
  c = ' ' || c = '\t' || c = '\n' || c = '\r' || c = '\x0b' || c = '\x0c'

/-- Python `str.isspace()`: true iff the string is nonempty and all characters
are whitespace. -/
def pyIsSpace (s : String) : Bool :=
  !s.data.isEmpty && s.data.all pyWhite

/-- Python `str.strip()`: drop leading and trailing whitespace. -/
def pyStrip (s : String) : String :=
  ⟨((s.data.dropWhile pyWhite).reverse.dropWhile pyWhite).reverse⟩

/-- Association-list lookup (first binding wins), modelling Python dict lookup
for dicts whose keys are unique. -/
def dlookup {α β : Type} [DecidableEq α] (k : α) : List (α × β) → Option β
  | [] => none
  | (k2, v) :: d => if k2 = k then some v else dlookup k d

/-- Python `weights.get(col, 0)` on a dict built in insertion order: the last
binding of a key wins, missing keys give `0`. -/
def wget (d : List (ℕ × ℤ)) (k : ℕ) : ℤ :=
  (dlookup k d.reverse).getD 0

/-- Python `enumerate(l, n)`: pair each element with its index starting at `n`. -/
def pyEnum {α : Type} (n : ℕ) : List α → List (ℕ × α)
  | [] => []
  | a :: l => (n, a) :: pyEnum (n + 1) l

/-- `ranks_to_weights(num_topics, ranks)`: the dict
`{ topic: num_topics - rank for rank, topic in enumerate(ranks) }`,
as an association list in insertion order. -/
def ranksToWeights (numTopics : ℕ) (ranks : List ℕ) : List (ℕ × ℤ) :=
  (pyEnum 0 ranks).map (fun p => (p.2, (numTopics : ℤ) - (p.1 : ℤ)))

/-- The module-level constant `jaro_winkler_threshold = 0.95`. -/
def jaroWinklerThreshold : ℚ := mkRat 95 100

/-- Models the body of `main` as far as the similarity threshold is concerned:
the statement `jaro_winkler_threshold = args.similarity` creates a *local*
variable of `main` (there is no `global` declaration), so the module-level
threshold read by `index_topic` is unchanged whatever `--similarity` was. -/
def mainThresholdUsed (_similarity : ℚ) : ℚ := jaroWinklerThreshold

/-- The `--similarity` validation in `main`:
`assert 1.0 >= args.similarity >= 0.7`. -/
def similarityValid (t : ℚ) : Prop := mkRat 7 10 ≤ t ∧ t ≤ 1

section DictLemmas

variable {α β : Type} [DecidableEq α]

theorem dlookup_eq_of_mem_of_nodup {d : List (α × β)} {k : α} {v : β}
    (hnd : (d.map Prod.fst).Nodup) (hmem : (k, v) ∈ d) : dlookup k d = some v := by
  induction d with
  | nil => cases hmem
  | cons p d ih =>
    obtain ⟨k2, v2⟩ := p
    simp only [List.map_cons, List.nodup_cons] at hnd
    rcases List.mem_cons.mp hmem with h | h
    · injection h with h1 h2
      subst h1; subst h2
      simp [dlookup]
    · have hne : k2 ≠ k := by
        intro he; subst he
        exact hnd.1 (List.mem_map.mpr ⟨(k2, v), h, rfl⟩)
      simp [dlookup, hne, ih hnd.2 h]

theorem dlookup_eq_none_of_not_mem {d : List (α × β)} {k : α}
    (h : k ∉ d.map Prod.fst) : dlookup k d = none := by
  induction d with
  | nil => rfl
  | cons p d ih =>
    obtain ⟨k2, v2⟩ := p
    simp only [List.map_cons, List.mem_cons] at h
    push_neg at h
    have hne : k2 ≠ k := fun he => h.1 he.symm
    simp [dlookup, hne, ih h.2]

end DictLemmas

theorem wget_eq_of_mem_of_nodup {d : List (ℕ × ℤ)} {k : ℕ} {v : ℤ}
    (hnd : (d.map Prod.fst).Nodup) (hmem : (k, v) ∈ d) : wget d k = v := by
  have hnd' : (d.reverse.map Prod.fst).Nodup := by
    rw [List.map_reverse]
    exact List.nodup_reverse.mpr hnd
  have : dlookup k d.reverse = some v :=
    dlookup_eq_of_mem_of_nodup hnd' (List.mem_reverse.mpr hmem)
  simp [wget, this]

theorem wget_eq_zero_of_not_mem {d : List (ℕ × ℤ)} {k : ℕ}
    (h : k ∉ d.map Prod.fst) : wget d k = 0 := by
  have : dlookup k d.reverse = none := by
    apply dlookup_eq_none_of_not_mem
    rw [List.map_reverse]
    simpa using h
  simp [wget, this]

theorem wget_nil (k : ℕ) : wget [] k = 0 := rfl

theorem pyEnum_map_snd {α : Type} : ∀ (n : ℕ) (l : List α),
    (pyEnum n l).map Prod.snd = l := by
  intro n l
  induction l generalizing n with
  | nil => rfl
  | cons a l ih => simp [pyEnum, ih]

theorem mem_pyEnum_of_get {α : Type} : ∀ (l : List α) (n r : ℕ) (h : r < l.length),
    (n + r, l.get ⟨r, h⟩) ∈ pyEnum n l := by
  intro l
  induction l with
  | nil => intro n r h; simp at h
  | cons a l ih =>
    intro n r h
    match r with
    | 0 => simp [pyEnum]
    | r + 1 =>
      have := ih (n + 1) r (by simpa using Nat.lt_of_succ_lt_succ h)
      have harith : n + (r + 1) = (n + 1) + r := by omega
      rw [harith]
      exact List.mem_cons_of_mem _ this

/-- The keys of `ranks_to_weights` are exactly the ranked topics, in order. -/
theorem ranksToWeights_keys (numTopics : ℕ) (ranks : List ℕ) :
    (ranksToWeights numTopics ranks).map Prod.fst = ranks := by
  unfold ranksToWeights
  rw [List.map_map]
  have : (Prod.fst ∘ fun p : ℕ × ℕ => ((p.2 : ℕ), (numTopics : ℤ) - (p.1 : ℤ)))
      = Prod.snd := by
    funext p; rfl
  rw [this, pyEnum_map_snd]

theorem mem_enum_of_get (l : List ℕ) (r : ℕ) (h : r < l.length) :
    (r, l.get ⟨r, h⟩) ∈ pyEnum 0 l := by
  have := mem_pyEnum_of_get l 0 r h
  simpa using this

theorem ranksToWeights_rank (numTopics : ℕ) (ranks : List ℕ)
    (hnd : ranks.Nodup) (r : ℕ) (h : r < ranks.length) :
    wget (ranksToWeights numTopics ranks) (ranks.get ⟨r, h⟩)
      = (numTopics : ℤ) - (r : ℤ) := by
  apply wget_eq_of_mem_of_nodup
  · rw [ranksToWeights_keys]; exact hnd
  · unfold ranksToWeights
    exact List.mem_map.mpr ⟨(r, ranks.get ⟨r, h⟩), mem_enum_of_get ranks r h, rfl⟩

/-- C3: `ranks_to_weights` gives the topic at 0-based rank `r` the weight
`topic_count - r`, omits every unranked topic (it is not a key, hence weight 0),
and on `topic_count = 3`, ranking `[2, 0]` produces exactly `{2: 3, 0: 2}`. -/
theorem ranksToWeights_correct (numTopics : ℕ) (ranks : List ℕ)
    (hnd : ranks.Nodup) (_hlen : ranks.length ≤ numTopics) :
    (∀ r (h : r < ranks.length),
        wget (ranksToWeights numTopics ranks) (ranks.get ⟨r, h⟩)
          = (numTopics : ℤ) - (r : ℤ)) ∧
    (∀ t, t ∉ ranks →
        t ∉ (ranksToWeights numTopics ranks).map Prod.fst ∧
        wget (ranksToWeights numTopics ranks) t = 0) ∧
    ranksToWeights 3 [2, 0] = [(2, 3), (0, 2)] := by
  refine ⟨fun r h => ranksToWeights_rank numTopics ranks hnd r h, fun t ht => ?_, by decide⟩
  have hk : t ∉ (ranksToWeights numTopics ranks).map Prod.fst := by
    rw [ranksToWeights_keys]; exact ht
  exact ⟨hk, wget_eq_zero_of_not_mem hk⟩

/-- Witness for C3 at `topic_count = 3`, `ranking = [2, 0]`. -/
theorem ranksToWeights_correct_witness :
    (∀ r (h : r < ([2, 0] : List ℕ).length),
        wget (ranksToWeights 3 [2, 0]) (([2, 0] : List ℕ).get ⟨r, h⟩)
          = (3 : ℤ) - (r : ℤ)) ∧
    (∀ t, t ∉ ([2, 0] : List ℕ) →
        t ∉ (ranksToWeights 3 [2, 0]).map Prod.fst ∧
        wget (ranksToWeights 3 [2, 0]) t = 0) ∧
    ranksToWeights 3 [2, 0] = [(2, 3), (0, 2)] :=
  ranksToWeights_correct 3 [2, 0] (by decide) (by decide)

/-! ## Topic resolution (`Prefs.index_topic`) -/

/-- The accept/reject decision at the end of `index_topic` once all topics have
been scored: `first`/`second` are the tracked best and second-best
`(index, score)` pairs. Mirrors the tail of `index_topic`. -/
def itDecide (θ : ℚ) : Option (ℕ × ℚ) → Option (ℕ × ℚ) → Option ℕ
  | none, _ => none
  | some f, none => if f.2 ≥ θ then some f.1 else none
  | some f, some s2 => if f.2 - s2.2 < mkRat 1 10 ∨ f.2 < θ then none else some f.1

/-- The scoring loop of `index_topic`: iterate over the remaining topics (the
next one carrying index `k`), return the current index immediately on an exact
score of `1.0`, and otherwise maintain the best and second-best pairs exactly
as the Python loop does. -/
def itAux (jw : String → String → ℚ) (θ : ℚ) (token : String) :
    List String → ℕ → Option (ℕ × ℚ) → Option (ℕ × ℚ) → Option ℕ
  | [], _, first, second => itDecide θ first second
  | t :: ts, k, first, second =>
    if jw token t = 1 then some k
    else
      match first, second with
      | none, _ => itAux jw θ token ts (k + 1) (some (k, jw token t)) none
      | some f, none =>
        if jw token t > f.2 then
          itAux jw θ token ts (k + 1) (some (k, jw token t)) (some f)
        else itAux jw θ token ts (k + 1) (some f) (some (k, jw token t))
      | some f, some s2 =>
        if jw token t > f.2 then
          itAux jw θ token ts (k + 1) (some (k, jw token t)) (some f)
        else if jw token t > s2.2 then
          itAux jw θ token ts (k + 1) (some f) (some (k, jw token t))
        else itAux jw θ token ts (k + 1) (some f) (some s2)

/-- `Prefs.index_topic(self, s)` with the similarity metric `jw` and threshold
`θ` made explicit parameters. -/
def indexTopic (jw : String → String → ℚ) (θ : ℚ) (token : String)
    (topics : List String) : Option ℕ :=
  itAux jw θ token topics 0 none none

/-! Spec-side definitions for the Topic Resolver (from the spec's words,
section 4.2, to be compared with `indexTopic` above). -/

/-- Spec step 2: the index of the first score equal to `1.0`, if any. -/
def firstExact : List ℚ → Option ℕ
  | [] => none
  | s :: ss => if s = 1 then some 0 else (firstExact ss).map (· + 1)

/-- Earliest maximum of a score list, as an `(index, score)` pair; `b` is the
best seen so far and `i` the index of the next element. -/
def bestFrom (i : ℕ) (b : ℕ × ℚ) : List ℚ → ℕ × ℚ
  | [] => b
  | s :: ss => if s > b.2 then bestFrom (i + 1) (i, s) ss else bestFrom (i + 1) b ss

/-- The best-scoring candidate (earliest maximum) of a nonempty score list. -/
def bestOf : List ℚ → ℕ × ℚ
  | [] => (0, 0)
  | s :: ss => bestFrom 1 (0, s) ss

/-- Maximum of a nonempty score list (`0` on the empty list, never used). -/
def listMax : List ℚ → ℚ
  | [] => 0
  | s :: ss => ss.foldl max s

/-- Spec steps 4-6: no candidate is unresolved; a single candidate is accepted
iff its score reaches the threshold; with two or more candidates the best is
accepted iff it reaches the threshold and beats the second-best score (the
maximum after removing the best occurrence) by at least `0.1`. -/
def specCore (θ : ℚ) : List ℚ → Option ℕ
  | [] => none
  | [s] => if s ≥ θ then some 0 else none
  | s0 :: s1 :: rest =>
    let b := bestOf (s0 :: s1 :: rest)
    if b.2 ≥ θ ∧ b.2 - listMax ((s0 :: s1 :: rest).eraseIdx b.1) ≥ mkRat 1 10
    then some b.1 else none

/-- The Topic Resolver as the spec describes it: score every topic, return the
first exact match immediately, otherwise apply the threshold/margin policy. -/
def specResolve (jw : String → String → ℚ) (θ : ℚ) (token : String)
    (topics : List String) : Option ℕ :=
  match firstExact (topics.map (jw token)) with
  | some j => some j
  | none => specCore θ (topics.map (jw token))

/-! ### Lemmas about the spec-side score bookkeeping -/

theorem bestFrom_append (s : ℚ) :
    ∀ (xs : List ℚ) (i : ℕ) (b : ℕ × ℚ),
      bestFrom i b (xs ++ [s])
        = (if s > (bestFrom i b xs).2 then (i + xs.length, s) else bestFrom i b xs) := by
  intro xs
  induction xs with
  | nil => intro i b; simp [bestFrom]
  | cons x xs ih =>
    intro i b
    have h2 : i + (x :: xs).length = (i + 1) + xs.length := by
      simp [List.length_cons]; omega
    by_cases hx : x > b.2
    · simp only [List.cons_append, bestFrom, if_pos hx]
      rw [h2]
      exact ih (i + 1) (i, x)
    · simp only [List.cons_append, bestFrom, if_neg hx]
      rw [h2]
      exact ih (i + 1) b

theorem bestFrom_val : ∀ (xs : List ℚ) (i : ℕ) (b : ℕ × ℚ),
    (bestFrom i b xs).2 = xs.foldl max b.2 := by
  intro xs
  induction xs with
  | nil => intro i b; simp [bestFrom]
  | cons x xs ih =>
    intro i b
    by_cases hx : x > b.2
    · rw [bestFrom, if_pos hx, ih]
      simp [List.foldl_cons, max_eq_right (le_of_lt hx)]
    · rw [bestFrom, if_neg hx, ih]
      simp [List.foldl_cons, max_eq_left (le_of_not_lt hx)]

theorem bestFrom_idx : ∀ (xs : List ℚ) (i : ℕ) (b : ℕ × ℚ),
    b.1 < i → (bestFrom i b xs).1 < i + xs.length := by
  intro xs
  induction xs with
  | nil => intro i b hb; simpa using hb
  | cons x xs ih =>
    intro i b hb
    have hlen : i + (x :: xs).length = (i + 1) + xs.length := by
      simp [List.length_cons]; omega
    rw [hlen, bestFrom]
    by_cases hx : x > b.2
    · rw [if_pos hx]; exact ih (i + 1) (i, x) (by omega)
    · rw [if_neg hx]; exact ih (i + 1) b (by omega)

theorem bestOf_singleton (s : ℚ) : bestOf [s] = (0, s) := rfl

theorem bestOf_append {L : List ℚ} (hL : L ≠ []) (s : ℚ) :
    bestOf (L ++ [s])
      = (if s > (bestOf L).2 then (L.length, s) else bestOf L) := by
  obtain ⟨s0, L', rfl⟩ := List.exists_cons_of_ne_nil hL
  have h2 : (1 : ℕ) + L'.length = (s0 :: L').length := by
    simp [List.length_cons]; omega
  simp only [List.cons_append, bestOf, bestFrom_append, h2]

theorem bestOf_val {L : List ℚ} (hL : L ≠ []) : (bestOf L).2 = listMax L := by
  obtain ⟨s0, L', rfl⟩ := List.exists_cons_of_ne_nil hL
  simp [bestOf, listMax, bestFrom_val]

theorem bestOf_idx_lt {L : List ℚ} (hL : L ≠ []) : (bestOf L).1 < L.length := by
  obtain ⟨s0, L', rfl⟩ := List.exists_cons_of_ne_nil hL
  have := bestFrom_idx L' 1 (0, s0) (by omega)
  simpa [bestOf, List.length_cons, Nat.add_comm] using this

theorem listMax_append_singleton {R : List ℚ} (hR : R ≠ []) (s : ℚ) :
    listMax (R ++ [s]) = max (listMax R) s := by
  obtain ⟨a, rr, rfl⟩ := List.exists_cons_of_ne_nil hR
  simp [listMax, List.foldl_append]

theorem eraseIdx_append_lt {α : Type} :
    ∀ (l : List α) (l2 : List α) (n : ℕ), n < l.length →
      (l ++ l2).eraseIdx n = l.eraseIdx n ++ l2 := by
  intro l
  induction l with
  | nil => intro l2 n h; simp at h
  | cons a l ih =>
    intro l2 n h
    match n with
    | 0 => simp [List.eraseIdx]
    | n + 1 =>
      simp only [List.cons_append, List.eraseIdx]
      exact congrArg (fun r => a :: r) (ih l2 n (by simpa using Nat.lt_of_succ_lt_succ h))

theorem eraseIdx_append_len {α : Type} :
    ∀ (l : List α) (s : α), (l ++ [s]).eraseIdx l.length = l := by
  intro l
  induction l with
  | nil => intro s; rfl
  | cons a l ih =>
    intro s
    simp only [List.cons_append, List.length_cons, List.eraseIdx]
    exact congrArg (fun r => a :: r) (ih s)

theorem length_eraseIdx_lt {α : Type} :
    ∀ (l : List α) (n : ℕ), n < l.length → (l.eraseIdx n).length = l.length - 1 := by
  intro l
  induction l with
  | nil => intro n h; simp at h
  | cons a l ih =>
    intro n h
    match n with
    | 0 => simp [List.eraseIdx]
    | n + 1 =>
      simp only [List.eraseIdx, List.length_cons]
      rw [ih n (by simpa using Nat.lt_of_succ_lt_succ h)]
      have : 0 < l.length := by
        have := Nat.lt_of_succ_lt_succ h; omega
      omega

theorem firstExact_eq_none {M : List ℚ} (h : firstExact M = none) :
    ∀ x ∈ M, x ≠ 1 := by
  induction M with
  | nil => intro x hx; cases hx
  | cons s ss ih =>
    intro x hx
    by_cases hs : s = 1
    · rw [firstExact, if_pos hs] at h; cases h
    · rw [firstExact, if_neg hs] at h
      rcases List.mem_cons.mp hx with rfl | hx'
      · exact hs
      · exact ih (Option.map_eq_none'.mp h) x hx'

/-- If some remaining topic scores exactly 1, the loop returns the index of the
first such topic, whatever the accumulators hold. -/
theorem itAux_exact (jw : String → String → ℚ) (θ : ℚ) (token : String) :
    ∀ (ts : List String) (j : ℕ),
      firstExact (ts.map (jw token)) = some j →
      ∀ (k : ℕ) (f s : Option (ℕ × ℚ)), itAux jw θ token ts k f s = some (k + j) := by
  intro ts
  induction ts with
  | nil => intro j h; simp [firstExact] at h
  | cons t ts ih =>
    intro j h k f s
    by_cases h1 : jw token t = 1
    · simp only [List.map_cons, firstExact, if_pos h1, Option.some.injEq] at h
      subst h
      simp [itAux, h1]
    · simp only [List.map_cons, firstExact, if_neg h1] at h
      obtain ⟨j', hj', rfl⟩ := Option.map_eq_some'.mp h
      have harr : ∀ (X Y : Option (ℕ × ℚ)),
          itAux jw θ token ts (k + 1) X Y = some (k + (j' + 1)) := by
        intro X Y
        rw [ih j' hj' (k + 1) X Y]
        simp only [Option.some.injEq]
        omega
      cases f with
      | none =>
        simp only [itAux, if_neg h1]
        exact harr _ _
      | some fp =>
        cases s with
        | none =>
          simp only [itAux, if_neg h1]
          by_cases h2 : jw token t > fp.2
          · rw [if_pos h2]; exact harr _ _
          · rw [if_neg h2]; exact harr _ _
        | some sp =>
          simp only [itAux, if_neg h1]
          by_cases h2 : jw token t > fp.2
          · rw [if_pos h2]; exact harr _ _
          · rw [if_neg h2]
            by_cases h3 : jw token t > sp.2
            · rw [if_pos h3]; exact harr _ _
            · rw [if_neg h3]; exact harr _ _

/-- Loop invariant for `itAux`: after the scores `L` (none of them exactly 1)
have been processed, `first` holds the earliest maximum of `L` and `second`
holds (index aside) the maximum of `L` with that occurrence removed; running
the loop over the remaining topics then yields the spec's final decision on
the full score list. -/
theorem itAux_run (jw : String → String → ℚ) (θ : ℚ) (token : String) :
    ∀ (ts : List String) (L : List ℚ), L ≠ [] →
      (∀ t ∈ ts, jw token t ≠ 1) → ∀ (j2 : ℕ),
      itAux jw θ token ts L.length (some (bestOf L))
        (if L.length ≤ 1 then none
         else some (j2, listMax (L.eraseIdx (bestOf L).1)))
      = specCore θ (L ++ ts.map (jw token)) := by
  intro ts
  induction ts with
  | nil =>
    intro L hL _ j2
    rw [List.map_nil, List.append_nil]
    obtain ⟨s0, L', rfl⟩ := List.exists_cons_of_ne_nil hL
    cases L' with
    | nil =>
      simp [itAux, itDecide, bestOf, bestFrom, specCore]
    | cons s1 rest =>
      have hlen : ¬((s0 :: s1 :: rest).length ≤ 1) := by simp [List.length_cons]
      rw [if_neg hlen]
      show itDecide θ (some (bestOf (s0 :: s1 :: rest)))
          (some (j2, listMax ((s0 :: s1 :: rest).eraseIdx (bestOf (s0 :: s1 :: rest)).1)))
        = specCore θ (s0 :: s1 :: rest)
      rw [itDecide, specCore]
      have hiff : ((bestOf (s0 :: s1 :: rest)).2
              - listMax ((s0 :: s1 :: rest).eraseIdx (bestOf (s0 :: s1 :: rest)).1) < mkRat 1 10
            ∨ (bestOf (s0 :: s1 :: rest)).2 < θ)
          ↔ ¬((bestOf (s0 :: s1 :: rest)).2 ≥ θ
            ∧ (bestOf (s0 :: s1 :: rest)).2
              - listMax ((s0 :: s1 :: rest).eraseIdx (bestOf (s0 :: s1 :: rest)).1) ≥ mkRat 1 10) := by
        rw [not_and_or, not_le, not_le, or_comm]
      by_cases hC : (bestOf (s0 :: s1 :: rest)).2 ≥ θ
          ∧ (bestOf (s0 :: s1 :: rest)).2
            - listMax ((s0 :: s1 :: rest).eraseIdx (bestOf (s0 :: s1 :: rest)).1) ≥ mkRat 1 10
      · rw [if_neg (fun h => (hiff.mp h) hC), if_pos hC]
      · rw [if_pos (hiff.mpr hC), if_neg hC]
  | cons t ts ih =>
    intro L hL hno1 j2
    have hs1 : jw token t ≠ 1 := hno1 t (List.mem_cons_self t ts)
    have hno1' : ∀ u ∈ ts, jw token u ≠ 1 := fun u hu => hno1 u (List.mem_cons_of_mem t hu)
    have happ : L ++ (t :: ts).map (jw token)
        = (L ++ [jw token t]) ++ ts.map (jw token) := by
      simp [List.map_cons]
    rw [happ]
    by_cases hL1 : L.length ≤ 1
    · have hlen1 : L.length = 1 := by
        have : 0 < L.length := List.length_pos.mpr hL
        omega
      obtain ⟨s0, rfl⟩ := List.length_eq_one.mp hlen1
      rw [if_pos hL1, bestOf_singleton]
      simp only [itAux, if_neg hs1]
      by_cases h2 : jw token t > s0
      · rw [if_pos (by simpa using h2)]
        have hb : bestOf [s0, jw token t] = (1, jw token t) := by
          simp [bestOf, bestFrom, h2]
        have := ih [s0, jw token t] (by simp) hno1' 0
        simp only [hb, List.length_cons, List.length_nil] at this
        simp only [List.eraseIdx, listMax, List.foldl_nil] at this
        simpa using this
      · rw [if_neg (by simpa using h2)]
        have hb : bestOf [s0, jw token t] = (0, s0) := by
          simp [bestOf, bestFrom, h2]
        have := ih [s0, jw token t] (by simp) hno1' 1
        simp only [hb, List.length_cons, List.length_nil] at this
        simp only [List.eraseIdx, listMax, List.foldl_nil] at this
        simpa using this
    · rw [if_neg hL1]
      have hL2 : 2 ≤ L.length := by omega
      have hLs : L ++ [jw token t] ≠ [] := by simp
      have hlenapp : (L ++ [jw token t]).length = L.length + 1 := by simp
      have hnotle : ¬(L.length + 1 ≤ 1) := by omega
      simp only [itAux, if_neg hs1]
      by_cases h2 : jw token t > (bestOf L).2
      · rw [if_pos h2]
        have hb : bestOf (L ++ [jw token t]) = (L.length, jw token t) := by
          rw [bestOf_append hL, if_pos h2]
        have hbpair : bestOf L = ((bestOf L).1, listMax L) := by
          rw [← bestOf_val hL]
        have := ih (L ++ [jw token t]) hLs hno1' (bestOf L).1
        rw [hlenapp, if_neg hnotle, hb] at this
        simp only at this
        rw [eraseIdx_append_len] at this
        rw [← hbpair] at this
        exact this
      · rw [if_neg h2]
        have hb : bestOf (L ++ [jw token t]) = bestOf L := by
          rw [bestOf_append hL, if_neg h2]
        have hidx : (bestOf L).1 < L.length := bestOf_idx_lt hL
        have herase : (L ++ [jw token t]).eraseIdx (bestOf L).1
            = L.eraseIdx (bestOf L).1 ++ [jw token t] :=
          eraseIdx_append_lt L [jw token t] (bestOf L).1 hidx
        have hRne : L.eraseIdx (bestOf L).1 ≠ [] := by
          have := length_eraseIdx_lt L (bestOf L).1 hidx
          intro hcon
          rw [hcon] at this
          simp at this
          omega
        have hmaxapp : listMax ((L ++ [jw token t]).eraseIdx (bestOf L).1)
            = max (listMax (L.eraseIdx (bestOf L).1)) (jw token t) := by
          rw [herase, listMax_append_singleton hRne]
        by_cases h3 : jw token t > listMax (L.eraseIdx (bestOf L).1)
        · rw [if_pos (by simpa using h3)]
          have := ih (L ++ [jw token t]) hLs hno1' L.length
          rw [hlenapp, if_neg hnotle, hb, hmaxapp,
            max_eq_right (le_of_lt h3)] at this
          exact this
        · rw [if_neg (by simpa using h3)]
          have := ih (L ++ [jw token t]) hLs hno1' j2
          rw [hlenapp, if_neg hnotle, hb, hmaxapp,
            max_eq_left (le_of_not_lt h3)] at this
          exact this

/-- C2: for every similarity function, threshold, token and topic list,
`index_topic` returns exactly what the spec's acceptance policy prescribes:
the first exact (score 1.0) match immediately if one exists; unresolved with no
candidate; with one candidate its index iff its score reaches the threshold;
with two or more candidates the best index iff the best score reaches the
threshold and beats the second-best by at least 0.1, otherwise unresolved. -/
theorem indexTopic_eq_specResolve (jw : String → String → ℚ) (θ : ℚ)
    (token : String) (topics : List String) :
    indexTopic jw θ token topics = specResolve jw θ token topics := by
  unfold indexTopic specResolve
  cases hfe : firstExact (topics.map (jw token)) with
  | some j =>
    rw [itAux_exact jw θ token topics j hfe 0 none none]
    simp
  | none =>
    have hno1 : ∀ u ∈ topics, jw token u ≠ 1 := by
      intro u hu
      exact firstExact_eq_none hfe (jw token u) (List.mem_map_of_mem _ hu)
    cases topics with
    | nil => simp [itAux, itDecide, specCore]
    | cons t ts =>
      have hs1 : jw token t ≠ 1 := hno1 t (List.mem_cons_self t ts)
      have hno1' : ∀ u ∈ ts, jw token u ≠ 1 :=
        fun u hu => hno1 u (List.mem_cons_of_mem t hu)
      simp only [itAux, if_neg hs1]
      have hrun := itAux_run jw θ token ts [jw token t] (by simp) hno1' 0
      rw [List.length_singleton, bestOf_singleton, if_pos (le_refl 1)] at hrun
      rw [List.singleton_append] at hrun
      simp only [List.map_cons]
      simpa using hrun

/-- Any index produced by the scoring loop is below `k` plus the number of
remaining topics, provided the accumulators' indices are below `k`. -/
theorem itAux_lt (jw : String → String → ℚ) (θ : ℚ) (token : String) :
    ∀ (ts : List String) (k : ℕ) (f s : Option (ℕ × ℚ)),
      (∀ p, f = some p → p.1 < k) → (∀ p, s = some p → p.1 < k) →
      ∀ idx, itAux jw θ token ts k f s = some idx → idx < k + ts.length := by
  intro ts
  induction ts with
  | nil =>
    intro k f s hf hs idx h
    cases f with
    | none => simp [itAux, itDecide] at h
    | some fp =>
      cases s with
      | none =>
        simp only [itAux, itDecide] at h
        by_cases hc : fp.2 ≥ θ
        · rw [if_pos hc] at h
          injection h with h2
          have := hf fp rfl
          simp only [List.length_nil]
          omega
        · rw [if_neg hc] at h; cases h
      | some sp =>
        simp only [itAux, itDecide] at h
        by_cases hc : fp.2 - sp.2 < mkRat 1 10 ∨ fp.2 < θ
        · rw [if_pos hc] at h; cases h
        · rw [if_neg hc] at h
          injection h with h2
          have := hf fp rfl
          simp only [List.length_nil]
          omega
  | cons t ts ih =>
    intro k f s hf hs idx h
    have hgoal : k + (t :: ts).length = (k + 1) + ts.length := by
      simp [List.length_cons]; omega
    rw [hgoal]
    by_cases h1 : jw token t = 1
    · simp only [itAux, if_pos h1] at h
      injection h with h2
      omega
    · have hnewf : ∀ p : ℕ × ℚ, some (k, jw token t) = some p → p.1 < k + 1 := by
        intro p hp; injection hp with hp2; rw [← hp2]; omega
      have holdf : ∀ p : ℕ × ℚ, f = some p → p.1 < k + 1 := by
        intro p hp; have := hf p hp; omega
      have holds : ∀ p : ℕ × ℚ, s = some p → p.1 < k + 1 := by
        intro p hp; have := hs p hp; omega
      cases f with
      | none =>
        simp only [itAux, if_neg h1] at h
        exact ih (k + 1) _ none hnewf (fun p hp => by cases hp) idx h
      | some fp =>
        have hfp : ∀ p : ℕ × ℚ, some fp = some p → p.1 < k + 1 :=
          fun p hp => holdf p hp
        cases s with
        | none =>
          simp only [itAux, if_neg h1] at h
          by_cases h2 : jw token t > fp.2
          · rw [if_pos h2] at h
            exact ih (k + 1) _ _ hnewf hfp idx h
          · rw [if_neg h2] at h
            exact ih (k + 1) _ _ hfp hnewf idx h
        | some sp =>
          have hsp : ∀ p : ℕ × ℚ, some sp = some p → p.1 < k + 1 :=
            fun p hp => holds p hp
          simp only [itAux, if_neg h1] at h
          by_cases h2 : jw token t > fp.2
          · rw [if_pos h2] at h
            exact ih (k + 1) _ _ hnewf hfp idx h
          · rw [if_neg h2] at h
            by_cases h3 : jw token t > sp.2
            · rw [if_pos h3] at h
              exact ih (k + 1) _ _ hfp hnewf idx h
            · rw [if_neg h3] at h
              exact ih (k + 1) _ _ hfp hsp idx h

/-- A resolved topic index is a valid index into the topic list. -/
theorem indexTopic_lt_length {jw : String → String → ℚ} {θ : ℚ} {token : String}
    {topics : List String} {i : ℕ} (h : indexTopic jw θ token topics = some i) :
    i < topics.length := by
  have := itAux_lt jw θ token topics 0 none none
    (fun p hp => by cases hp) (fun p hp => by cases hp) i h
  simpa using this

/-! ## Preference store and ingestion (`Prefs.from_text`) -/

/-- The in-memory Preference Store: the ordered topic list and the mapping
from participant name to preference ranking, in insertion order. -/
structure Prefs where
  topics : List String
  users : List (String × List ℕ)
deriving DecidableEq

/-- Parser states of the ingestion state machine. -/
inductive PState where
  | topics
  | username
  | prefs
deriving DecidableEq

/-- The two fatal ingestion errors, each carrying the 1-based line number and
the offending text, as in the raised `ValueError`s. -/
inductive ParseErr where
  | dupUser (line : ℕ) (name : String)
  | badPref (line : ℕ) (pref : String)
deriving DecidableEq

/-- The parser's working state: the store built so far, the machine state, the
current username and the currently open preference list. -/
structure ParseSt where
  store : Prefs
  state : PState
  username : String
  prefs : List ℕ
deriving DecidableEq

/-- One line of `from_text`'s loop; `i` is the 0-based line index produced by
`enumerate`. Blank lines move `TOPICS`/`PREFS` to `USERNAME` (committing the
open ranking in the latter case) and are ignored in `USERNAME`; non-blank lines
are appended as a topic, taken as a username (fatal if already a key), or
resolved as a preference (fatal if unresolved; a resolved index is appended
with no duplicate check). -/
def processLine (jw : String → String → ℚ) (i : ℕ) (line : String)
    (ps : ParseSt) : Except ParseErr ParseSt :=
  if pyIsSpace line then
    match ps.state with
    | .topics => .ok { ps with state := .username }
    | .prefs => .ok { store := { topics := ps.store.topics,
                                 users := ps.store.users ++ [(ps.username, ps.prefs)] },
                      state := .username, username := "", prefs := [] }
    | .username => .ok ps
  else
    match ps.state with
    | .topics => .ok { ps with store := { topics := ps.store.topics ++ [pyStrip line],
                                          users := ps.store.users } }
    | .username =>
      if pyStrip line ∈ ps.store.users.map Prod.fst then
        .error (.dupUser (i + 1) (pyStrip line))
      else .ok { ps with state := .prefs, username := pyStrip line }
    | .prefs =>
      match indexTopic jw jaroWinklerThreshold (pyStrip line) ps.store.topics with
      | none => .error (.badPref (i + 1) (pyStrip line))
      | some t => .ok { ps with prefs := ps.prefs ++ [t] }

/-- The line loop of `from_text`. -/
def runLines (jw : String → String → ℚ) :
    ℕ → List String → ParseSt → Except ParseErr ParseSt
  | _, [], ps => .ok ps
  | i, l :: ls, ps =>
    match processLine jw i l ps with
    | .error e => .error e
    | .ok ps2 => runLines jw (i + 1) ls ps2

/-- End-of-input commit: `if username != '': self.users[username] = prefs`. -/
def finalizePs (ps : ParseSt) : Prefs :=
  if ps.username ≠ "" then
    { topics := ps.store.topics, users := ps.store.users ++ [(ps.username, ps.prefs)] }
  else ps.store

/-- `Prefs.from_text(lines)` run on the store `init`. In the source, `Prefs()`
hands back the shared default-argument `topics` list and `users` dict of
`Prefs.__init__` (class-level mutable defaults), which still hold whatever
earlier parses in the same process stored there; threading `init` explicitly
models that sharing, and a fresh process corresponds to `init = startPrefs`.
The `takewhile(...)` call at the top of `from_text` discards its lazy iterator
(and its two-parameter lambda could never be applied), so it consumes nothing:
no leading-blank skipping happens and `enumerate` still numbers from 0. -/
def fromTextFrom (jw : String → String → ℚ) (init : Prefs)
    (lines : List String) : Except ParseErr Prefs :=
  match runLines jw 0 lines { store := init, state := .topics,
                              username := "", prefs := [] } with
  | .error e => .error e
  | .ok ps => .ok (finalizePs ps)

/-- The empty store a fresh process starts with. -/
def startPrefs : Prefs := { topics := [], users := [] }

/-- `Prefs.from_text` on the first call in a process. -/
def fromText (jw : String → String → ℚ) (lines : List String) :
    Except ParseErr Prefs :=
  fromTextFrom jw startPrefs lines

deriving instance DecidableEq for Except

/-- A concrete similarity metric for the concrete runs: exactly 1.0 on equal
strings (as the Similarity Metric contract requires) and 0 otherwise. -/
def jwExact : String → String → ℚ := fun s t => if s = t then 1 else 0

/-- C7 (code bug): the claim says leading blank lines are skipped, but the
`takewhile` that was meant to skip them is dead code, so a leading blank line
fires the `TOPICS → USERNAME` transition: `["\n", "Alpha\n"]` parses to an
empty topic list with participant `"Alpha"`, while `["Alpha\n"]` parses to
topic list `["Alpha"]` — the two stores differ. -/
theorem fromText_leading_blank_divergence :
    fromText jwExact ["\n", "Alpha\n"]
        = .ok { topics := [], users := [("Alpha", [])] } ∧
    fromText jwExact ["Alpha\n"]
        = .ok { topics := ["Alpha"], users := [] } ∧
    fromText jwExact ["\n", "Alpha\n"] ≠ fromText jwExact ["Alpha\n"] := by
  refine ⟨by decide, by decide, by decide⟩

/-- C8 (code bug): a preference line resolving to an index already in the open
ranking is appended with no error: two `"Alpha"` preference lines commit the
ranking `[0, 0]`, so the claimed fatal duplicate-preference error does not
exist and the committed ranking contains a repeated index. -/
theorem fromText_duplicate_pref_accepted :
    fromText jwExact ["Alpha\n", "Delta\n", "\n", "a@b.com\n", "Alpha\n", "Alpha\n"]
      = .ok { topics := ["Alpha", "Delta"], users := [("a@b.com", [0, 0])] } := by
  decide

/-- The Preference Store data-model invariant: every referenced topic index is
a valid index into the topic list, and no participant name has two entries. -/
def PrefsInv (p : Prefs) : Prop :=
  (∀ u ∈ p.users, ∀ t ∈ u.2, t < p.topics.length) ∧ (p.users.map Prod.fst).Nodup

/-- The invariant the line loop maintains on the full parser state. -/
def StInv (ps : ParseSt) : Prop :=
  PrefsInv ps.store ∧
  (∀ t ∈ ps.prefs, t < ps.store.topics.length) ∧
  (ps.state = PState.prefs → ps.username ∉ ps.store.users.map Prod.fst) ∧
  (ps.state ≠ PState.prefs → ps.username = "")

theorem processLine_inv {jw : String → String → ℚ} {i : ℕ} {line : String}
    {ps ps2 : ParseSt} (h : processLine jw i line ps = .ok ps2)
    (hinv : StInv ps) : StInv ps2 := by
  obtain ⟨⟨hbnd, hnd⟩, hpref, hfresh, hempty⟩ := hinv
  unfold processLine at h
  by_cases hsp : pyIsSpace line
  · rw [if_pos hsp] at h
    cases hst : ps.state with
    | topics =>
      rw [hst] at h
      simp only [Except.ok.injEq] at h
      subst h
      refine ⟨⟨hbnd, hnd⟩, hpref, ?_, ?_⟩
      · intro hc; cases hc
      · intro _
        exact hempty (by rw [hst]; intro hc; cases hc)
    | username =>
      rw [hst] at h
      simp only [Except.ok.injEq] at h
      subst h
      exact ⟨⟨hbnd, hnd⟩, hpref, hfresh, hempty⟩
    | prefs =>
      rw [hst] at h
      simp only [Except.ok.injEq] at h
      subst h
      have hkey : ps.username ∉ ps.store.users.map Prod.fst := hfresh hst
      refine ⟨⟨?_, ?_⟩, ?_, ?_, ?_⟩
      · intro u hu t ht
        rcases List.mem_append.mp hu with hu | hu
        · exact hbnd u hu t ht
        · rcases List.mem_singleton.mp hu with rfl
          exact hpref t ht
      · show (List.map Prod.fst (ps.store.users ++ [(ps.username, ps.prefs)])).Nodup
        rw [List.map_append]
        simp only [List.map_cons, List.map_nil]
        rw [List.nodup_append]
        refine ⟨hnd, List.nodup_singleton _, ?_⟩
        intro a ha hb
        rcases List.mem_singleton.mp hb with rfl
        exact hkey ha
      · intro t ht; cases ht
      · intro hc; cases hc
      · intro _; rfl
  · rw [if_neg hsp] at h
    cases hst : ps.state with
    | topics =>
      rw [hst] at h
      simp only [Except.ok.injEq] at h
      subst h
      have hlen : ps.store.topics.length
          ≤ (ps.store.topics ++ [pyStrip line]).length := by simp
      refine ⟨⟨?_, hnd⟩, ?_, ?_, ?_⟩
      · intro u hu t ht
        exact lt_of_lt_of_le (hbnd u hu t ht) hlen
      · intro t ht
        exact lt_of_lt_of_le (hpref t ht) hlen
      · intro hc; cases hc
      · intro _
        exact hempty (by rw [hst]; intro hc; cases hc)
    | username =>
      rw [hst] at h
      by_cases hmem : pyStrip line ∈ ps.store.users.map Prod.fst
      · rw [if_pos hmem] at h; cases h
      · rw [if_neg hmem] at h
        simp only [Except.ok.injEq] at h
        subst h
        refine ⟨⟨hbnd, hnd⟩, hpref, fun _ => hmem, fun hc => absurd rfl hc⟩
    | prefs =>
      rw [hst] at h
      cases hix : indexTopic jw jaroWinklerThreshold (pyStrip line) ps.store.topics with
      | none => rw [hix] at h; cases h
      | some t0 =>
        rw [hix] at h
        simp only [Except.ok.injEq] at h
        subst h
        refine ⟨⟨hbnd, hnd⟩, ?_, fun _ => hfresh hst, fun hc => absurd rfl hc⟩
        intro t ht
        rcases List.mem_append.mp ht with ht | ht
        · exact hpref t ht
        · rcases List.mem_singleton.mp ht with rfl
          exact indexTopic_lt_length hix

theorem runLines_inv {jw : String → String → ℚ} :
    ∀ (ls : List String) (i : ℕ) (ps ps2 : ParseSt),
      runLines jw i ls ps = .ok ps2 → StInv ps → StInv ps2 := by
  intro ls
  induction ls with
  | nil =>
    intro i ps ps2 h hinv
    simp only [runLines, Except.ok.injEq] at h
    subst h
    exact hinv
  | cons l ls ih =>
    intro i ps ps2 h hinv
    simp only [runLines] at h
    cases hpl : processLine jw i l ps with
    | error e => rw [hpl] at h; cases h
    | ok ps1 =>
      rw [hpl] at h
      exact ih (i + 1) ps1 ps2 h (processLine_inv hpl hinv)

theorem finalizePs_inv {ps : ParseSt} (hinv : StInv ps) :
    PrefsInv (finalizePs ps) := by
  obtain ⟨⟨hbnd, hnd⟩, hpref, hfresh, hempty⟩ := hinv
  unfold finalizePs
  by_cases hu : ps.username ≠ ""
  · rw [if_pos hu]
    have hstate : ps.state = PState.prefs := by
      by_contra hc
      exact hu (hempty hc)
    have hkey : ps.username ∉ ps.store.users.map Prod.fst := hfresh hstate
    refine ⟨?_, ?_⟩
    · intro u hmem t ht
      rcases List.mem_append.mp hmem with hmem | hmem
      · exact hbnd u hmem t ht
      · rcases List.mem_singleton.mp hmem with rfl
        exact hpref t ht
    · show (List.map Prod.fst (ps.store.users ++ [(ps.username, ps.prefs)])).Nodup
      rw [List.map_append]
      simp only [List.map_cons, List.map_nil]
      rw [List.nodup_append]
      refine ⟨hnd, List.nodup_singleton _, ?_⟩
      intro a ha hb
      rcases List.mem_singleton.mp hb with rfl
      exact hkey ha
  · rw [if_neg hu]
    exact ⟨hbnd, hnd⟩

/-- C9: a Preference Store successfully returned by `from_text` (run from any
store already satisfying the invariant, the empty store of a fresh process in
particular) satisfies the data-model invariant: every topic index in every
ranking is a valid index into the topic list, and no participant name has more
than one entry. -/
theorem fromTextFrom_invariant (jw : String → String → ℚ) (init : Prefs)
    (lines : List String) (store : Prefs) (hinit : PrefsInv init)
    (h : fromTextFrom jw init lines = .ok store) : PrefsInv store := by
  unfold fromTextFrom at h
  cases hrun : runLines jw 0 lines
      { store := init, state := .topics, username := "", prefs := [] } with
  | error e => rw [hrun] at h; cases h
  | ok ps =>
    rw [hrun] at h
    simp only [Except.ok.injEq] at h
    subst h
    apply finalizePs_inv
    apply runLines_inv lines 0 _ ps hrun
    refine ⟨hinit, ?_, ?_, ?_⟩
    · intro t ht; cases ht
    · intro hc; cases hc
    · intro _; rfl

/-- Witness for C9: a concrete successful parse, from the empty store, whose
result satisfies the invariant. -/
theorem fromTextFrom_invariant_witness :
    PrefsInv startPrefs ∧
    fromTextFrom jwExact startPrefs ["Alpha\n", "\n", "u@x.com\n", "Alpha\n"]
      = .ok { topics := ["Alpha"], users := [("u@x.com", [0])] } ∧
    PrefsInv { topics := ["Alpha"], users := [("u@x.com", [0])] } :=
  ⟨by unfold PrefsInv; decide, by decide,
    fromTextFrom_invariant jwExact startPrefs ["Alpha\n", "\n", "u@x.com\n", "Alpha\n"]
      { topics := ["Alpha"], users := [("u@x.com", [0])] }
      (by unfold PrefsInv; decide) (by decide)⟩

theorem processLine_ext {jw : String → String → ℚ} {i : ℕ} {line : String}
    {ps ps2 : ParseSt} (h : processLine jw i line ps = .ok ps2) :
    (∃ ts, ps2.store.topics = ps.store.topics ++ ts) ∧
    (∃ us, ps2.store.users = ps.store.users ++ us) := by
  unfold processLine at h
  by_cases hsp : pyIsSpace line
  · rw [if_pos hsp] at h
    cases hst : ps.state with
    | topics =>
      rw [hst] at h
      simp only [Except.ok.injEq] at h
      subst h
      exact ⟨⟨[], by simp⟩, ⟨[], by simp⟩⟩
    | username =>
      rw [hst] at h
      simp only [Except.ok.injEq] at h
      subst h
      exact ⟨⟨[], by simp⟩, ⟨[], by simp⟩⟩
    | prefs =>
      rw [hst] at h
      simp only [Except.ok.injEq] at h
      subst h
      exact ⟨⟨[], by simp⟩, ⟨[(ps.username, ps.prefs)], rfl⟩⟩
  · rw [if_neg hsp] at h
    cases hst : ps.state with
    | topics =>
      rw [hst] at h
      simp only [Except.ok.injEq] at h
      subst h
      exact ⟨⟨[pyStrip line], rfl⟩, ⟨[], by simp⟩⟩
    | username =>
      rw [hst] at h
      by_cases hmem : pyStrip line ∈ ps.store.users.map Prod.fst
      · rw [if_pos hmem] at h; cases h
      · rw [if_neg hmem] at h
        simp only [Except.ok.injEq] at h
        subst h
        exact ⟨⟨[], by simp⟩, ⟨[], by simp⟩⟩
    | prefs =>
      rw [hst] at h
      cases hix : indexTopic jw jaroWinklerThreshold (pyStrip line) ps.store.topics with
      | none => rw [hix] at h; cases h
      | some t0 =>
        rw [hix] at h
        simp only [Except.ok.injEq] at h
        subst h
        exact ⟨⟨[], by simp⟩, ⟨[], by simp⟩⟩

theorem runLines_ext {jw : String → String → ℚ} :
    ∀ (ls : List String) (i : ℕ) (ps ps2 : ParseSt),
      runLines jw i ls ps = .ok ps2 →
      (∃ ts, ps2.store.topics = ps.store.topics ++ ts) ∧
      (∃ us, ps2.store.users = ps.store.users ++ us) := by
  intro ls
  induction ls with
  | nil =>
    intro i ps ps2 h
    simp only [runLines, Except.ok.injEq] at h
    subst h
    exact ⟨⟨[], by simp⟩, ⟨[], by simp⟩⟩
  | cons l ls ih =>
    intro i ps ps2 h
    simp only [runLines] at h
    cases hpl : processLine jw i l ps with
    | error e => rw [hpl] at h; cases h
    | ok ps1 =>
      rw [hpl] at h
      obtain ⟨⟨ts1, hts1⟩, ⟨us1, hus1⟩⟩ := processLine_ext hpl
      obtain ⟨⟨ts2, hts2⟩, ⟨us2, hus2⟩⟩ := ih (i + 1) ps1 ps2 h
      exact ⟨⟨ts1 ++ ts2, by rw [hts2, hts1, List.append_assoc]⟩,
        ⟨us1 ++ us2, by rw [hus2, hus1, List.append_assoc]⟩⟩

/-- C10: `Prefs()` hands every `from_text` run the shared class-level /
default-argument store, so a successful later parse only extends the store an
earlier parse left behind — every earlier topic and participant is still
present — and a participant name ingested by an earlier parse triggers the
fatal duplicate-username error (with its line number) in a later parse that
reaches it in `USERNAME` state. -/
theorem fromTextFrom_shared_state (jw : String → String → ℚ) (init : Prefs)
    (lines : List String) (s : Prefs) (h : fromTextFrom jw init lines = .ok s) :
    ((∃ ts, s.topics = init.topics ++ ts) ∧ (∃ us, s.users = init.users ++ us)) ∧
    (∀ name r, (name, r) ∈ init.users → pyIsSpace name = false →
      pyStrip name = name →
      fromTextFrom jw s ["\n", name] = .error (.dupUser 2 name)) := by
  have hext : (∃ ts, s.topics = init.topics ++ ts) ∧
      (∃ us, s.users = init.users ++ us) := by
    unfold fromTextFrom at h
    cases hrun : runLines jw 0 lines
        { store := init, state := .topics, username := "", prefs := [] } with
    | error e => rw [hrun] at h; cases h
    | ok ps =>
      rw [hrun] at h
      simp only [Except.ok.injEq] at h
      subst h
      obtain ⟨⟨ts, hts⟩, ⟨us, hus⟩⟩ := runLines_ext lines 0 _ ps hrun
      unfold finalizePs
      by_cases hu : ps.username ≠ ""
      · rw [if_pos hu]
        exact ⟨⟨ts, hts⟩,
          ⟨us ++ [(ps.username, ps.prefs)], by rw [hus, List.append_assoc]⟩⟩
      · rw [if_neg hu]
        exact ⟨⟨ts, hts⟩, ⟨us, hus⟩⟩
  refine ⟨hext, ?_⟩
  intro name r hmem hsp hstrip
  obtain ⟨us2, hus2⟩ := hext.2
  have hmemkeys : name ∈ s.users.map Prod.fst := by
    rw [hus2, List.map_append]
    exact List.mem_append.mpr (Or.inl (List.mem_map.mpr ⟨(name, r), hmem, rfl⟩))
  have h1 : processLine jw 0 "\n"
      { store := s, state := .topics, username := "", prefs := [] }
      = .ok { store := s, state := .username, username := "", prefs := [] } := by
    unfold processLine
    rw [if_pos (show pyIsSpace "\n" = true by decide)]
  have h2 : processLine jw 1 name
      { store := s, state := .username, username := "", prefs := [] }
      = .error (.dupUser 2 name) := by
    unfold processLine
    rw [if_neg (show ¬(pyIsSpace name = true) by rw [hsp]; exact Bool.false_ne_true)]
    dsimp only
    rw [hstrip, if_pos hmemkeys]
  have hrun2 : runLines jw 0 ["\n", name]
      { store := s, state := .topics, username := "", prefs := [] }
      = .error (.dupUser 2 name) := by
    simp only [runLines, h1, h2]
  unfold fromTextFrom
  rw [hrun2]

/-- Witness for C10: an earlier parse left `("u@x.com", [0])` in the shared
store; an empty later parse returns it unchanged, and a later parse reading
`u@x.com` again dies with the duplicate-username error naming line 2. -/
theorem fromTextFrom_shared_state_witness :
    fromTextFrom jwExact { topics := ["X"], users := [("u@x.com", [0])] } []
        = .ok { topics := ["X"], users := [("u@x.com", [0])] } ∧
    fromTextFrom jwExact { topics := ["X"], users := [("u@x.com", [0])] }
        ["\n", "u@x.com"] = .error (.dupUser 2 "u@x.com") :=
  ⟨by decide,
    (fromTextFrom_shared_state jwExact { topics := ["X"], users := [("u@x.com", [0])] }
        [] { topics := ["X"], users := [("u@x.com", [0])] } (by decide)).2
      "u@x.com" [0] (by decide) (by decide) (by decide)⟩

/-! ## Assignment solver (`Prefs.solve`) -/

/-- The (already shuffled) real participants as solver rows: name plus the
weight dict `ranks_to_weights(size, prefs)`. -/
def realStudents (size : ℕ) (order : List (String × List ℕ)) :
    List (Option String × List (ℕ × ℤ)) :=
  order.map (fun u => (some u.1, ranksToWeights size u.2))

/-- `max(0, size - len(students))` ghost rows `(None, {})`. -/
def ghostRows (k : ℕ) : List (Option String × List (ℕ × ℤ)) :=
  List.replicate k (none, [])

/-- The padded row list handed to the assignment engine. -/
def paddedStudents (topics : List String) (order : List (String × List ℕ)) :
    List (Option String × List (ℕ × ℤ)) :=
  realStudents topics.length order ++ ghostRows (topics.length - order.length)

/-- Total assigned weight when row `i` receives column `m[i]`:
the sum of `weights.get(col, 0)` over the rows. -/
def matchingWeight (rows : List (Option String × List (ℕ × ℤ)))
    (m : List ℕ) : ℤ :=
  (List.zipWith (fun row c => wget row.2 c) rows m).sum

/-- Total cost of a matching under `AddArcWithCost(row, col, -weight)`. -/
def matchingCost (rows : List (Option String × List (ℕ × ℤ)))
    (m : List ℕ) : ℤ :=
  (List.zipWith (fun row c => -(wget row.2 c)) rows m).sum

/-- All ways to give `n` rows pairwise-distinct columns drawn from `cols`:
with `cols` the full column range this enumerates every row→column bijection.
Modelled from the spec (section 4.5 step 6): the external `ortools`
`LinearSumAssignment` engine is any correct optimal assignment solver, so it is
modelled as exhaustive search over this space. -/
def colMatchings : ℕ → List ℕ → List (List ℕ)
  | 0, _ => [[]]
  | n + 1, cols => cols.flatMap (fun c => (colMatchings n (cols.erase c)).map (c :: ·))

/-- First minimiser of `f` in a list (the solver's tie-breaking among
equal-cost matchings is unspecified; this fixes one deterministically). -/
def argminBy {α : Type} (f : α → ℤ) : List α → Option α
  | [] => none
  | a :: l =>
    match argminBy f l with
    | none => some a
    | some b => if f a ≤ f b then some a else some b

/-- Maximum of a list of integers in `WithBot ℤ` (`⊥` on the empty list). -/
def lmax (l : List ℤ) : WithBot ℤ :=
  l.foldr (fun a b => max (a : WithBot ℤ) b) ⊥

theorem le_lmax_of_mem {a : ℤ} : ∀ {l : List ℤ}, a ∈ l → (a : WithBot ℤ) ≤ lmax l := by
  intro l
  induction l with
  | nil => intro h; cases h
  | cons x l ih =>
    intro h
    rcases List.mem_cons.mp h with rfl | h
    · exact le_max_left _ _
    · exact le_trans (ih h) (le_max_right _ _)

theorem lmax_le {b : WithBot ℤ} : ∀ {l : List ℤ},
    (∀ a ∈ l, (a : WithBot ℤ) ≤ b) → lmax l ≤ b := by
  intro l
  induction l with
  | nil => intro _; exact bot_le
  | cons x l ih =>
    intro h
    exact max_le (h x (List.mem_cons_self x l))
      (ih fun a ha => h a (List.mem_cons_of_mem x ha))

theorem lmax_eq_coe {l : List ℤ} {m : ℤ} (hm : m ∈ l) (hmax : ∀ a ∈ l, a ≤ m) :
    lmax l = (m : WithBot ℤ) :=
  le_antisymm (lmax_le fun a ha => WithBot.coe_le_coe.mpr (hmax a ha))
    (le_lmax_of_mem hm)

theorem exists_mem_le_of_le_lmax {a : ℤ} : ∀ {l : List ℤ},
    (a : WithBot ℤ) ≤ lmax l → ∃ b ∈ l, a ≤ b := by
  intro l
  induction l with
  | nil =>
    intro h
    exact absurd h (by simp [lmax])
  | cons x l ih =>
    intro h
    rcases le_max_iff.mp h with h | h
    · exact ⟨x, List.mem_cons_self x l, WithBot.coe_le_coe.mp h⟩
    · obtain ⟨b, hb, hab⟩ := ih h
      exact ⟨b, List.mem_cons_of_mem x hb, hab⟩

theorem lmax_le_lmax_of_dominated {l1 l2 : List ℤ}
    (h : ∀ a ∈ l1, ∃ b ∈ l2, a ≤ b) : lmax l1 ≤ lmax l2 :=
  lmax_le fun a ha => by
    obtain ⟨b, hb, hab⟩ := h a ha
    exact le_trans (WithBot.coe_le_coe.mpr hab) (le_lmax_of_mem hb)

theorem argminBy_eq_some {α : Type} (f : α → ℤ) :
    ∀ (l : List α), l ≠ [] → ∃ m, argminBy f l = some m := by
  intro l hl
  cases l with
  | nil => exact absurd rfl hl
  | cons a l =>
    cases hrec : argminBy f l with
    | none => exact ⟨a, by simp [argminBy, hrec]⟩
    | some b =>
      by_cases hc : f a ≤ f b
      · exact ⟨a, by simp [argminBy, hrec, hc]⟩
      · exact ⟨b, by simp [argminBy, hrec, hc]⟩

theorem argminBy_mem {α : Type} {f : α → ℤ} :
    ∀ {l : List α} {m : α}, argminBy f l = some m → m ∈ l := by
  intro l
  induction l with
  | nil => intro m h; cases h
  | cons a l ih =>
    intro m h
    simp only [argminBy] at h
    cases hrec : argminBy f l with
    | none =>
      rw [hrec] at h
      simp only [Option.some.injEq] at h
      subst h
      exact List.mem_cons_self a l
    | some b =>
      rw [hrec] at h
      dsimp only at h
      by_cases hc : f a ≤ f b
      · rw [if_pos hc] at h
        simp only [Option.some.injEq] at h
        subst h
        exact List.mem_cons_self a l
      · rw [if_neg hc] at h
        simp only [Option.some.injEq] at h
        subst h
        exact List.mem_cons_of_mem a (ih hrec)

theorem argminBy_le {α : Type} {f : α → ℤ} :
    ∀ {l : List α} {m : α}, argminBy f l = some m → ∀ x ∈ l, f m ≤ f x := by
  intro l
  induction l with
  | nil => intro m h; cases h
  | cons a l ih =>
    intro m h x hx
    simp only [argminBy] at h
    cases hrec : argminBy f l with
    | none =>
      rw [hrec] at h
      simp only [Option.some.injEq] at h
      subst h
      cases l with
      | nil =>
        have heq : x = a := List.mem_singleton.mp hx
        rw [heq]
      | cons y l2 =>
        obtain ⟨m2, hm2⟩ := argminBy_eq_some f (y :: l2) (by simp)
        rw [hm2] at hrec
        cases hrec
    | some b =>
      rw [hrec] at h
      dsimp only at h
      have hmle : f m ≤ f a ∧ ∀ z ∈ l, f m ≤ f z := by
        by_cases hc : f a ≤ f b
        · rw [if_pos hc] at h
          simp only [Option.some.injEq] at h
          subst h
          exact ⟨le_refl _, fun z hz => le_trans hc (ih hrec z hz)⟩
        · rw [if_neg hc] at h
          simp only [Option.some.injEq] at h
          subst h
          exact ⟨le_of_not_le hc, fun z hz => ih hrec z hz⟩
      rcases List.mem_cons.mp hx with heq | hx2
      · rw [heq]; exact hmle.1
      · exact hmle.2 x hx2

theorem mem_colMatchings_succ {n : ℕ} {cols : List ℕ} {m : List ℕ} :
    m ∈ colMatchings (n + 1) cols ↔
      ∃ c ∈ cols, ∃ m2, m2 ∈ colMatchings n (cols.erase c) ∧ c :: m2 = m := by
  simp [colMatchings]

theorem colMatchings_ne_nil : ∀ (n : ℕ) (cols : List ℕ),
    n ≤ cols.length → colMatchings n cols ≠ [] := by
  intro n
  induction n with
  | zero => intro cols _; simp [colMatchings]
  | succ n ih =>
    intro cols hlen
    cases cols with
    | nil => simp at hlen
    | cons c cs =>
      have h1 : (c :: cs).erase c = cs := List.erase_cons_head c cs
      have h2 : colMatchings n cs ≠ [] := by
        apply ih
        simp only [List.length_cons] at hlen
        omega
      intro hcon
      rw [colMatchings, List.flatMap_cons, h1] at hcon
      exact h2 (List.map_eq_nil_iff.mp (List.append_eq_nil.mp hcon).1)

theorem length_of_mem_colMatchings : ∀ (n : ℕ) (cols m : List ℕ),
    m ∈ colMatchings n cols → m.length = n := by
  intro n
  induction n with
  | zero =>
    intro cols m h
    simp [colMatchings] at h
    subst h
    rfl
  | succ n ih =>
    intro cols m h
    obtain ⟨c, _, m2, hm2, heq⟩ := mem_colMatchings_succ.mp h
    subst heq
    simp [ih (cols.erase c) m2 hm2]

theorem colMatchings_nodup : ∀ (n : ℕ) (cols m : List ℕ), cols.Nodup →
    m ∈ colMatchings n cols → m.Nodup ∧ ∀ c ∈ m, c ∈ cols := by
  intro n
  induction n with
  | zero =>
    intro cols m _ h
    simp [colMatchings] at h
    subst h
    exact ⟨List.nodup_nil, fun c hc => absurd hc (List.not_mem_nil c)⟩
  | succ n ih =>
    intro cols m hnd h
    obtain ⟨c, hc, m2, hm2, heq⟩ := mem_colMatchings_succ.mp h
    subst heq
    obtain ⟨hnd2, hsub2⟩ := ih (cols.erase c) m2 (hnd.erase c) hm2
    refine ⟨List.nodup_cons.mpr ⟨?_, hnd2⟩, ?_⟩
    · intro hcm
      have := hsub2 c hcm
      rw [hnd.mem_erase_iff] at this
      exact this.1 rfl
    · intro x hx
      rcases List.mem_cons.mp hx with rfl | hx
      · exact hc
      · exact List.mem_of_mem_erase (hsub2 x hx)

theorem matchingWeight_cons (r : Option String × List (ℕ × ℤ))
    (rows : List (Option String × List (ℕ × ℤ))) (c : ℕ) (m : List ℕ) :
    matchingWeight (r :: rows) (c :: m) = wget r.2 c + matchingWeight rows m := by
  simp [matchingWeight]

theorem matchingCost_eq_neg :
    ∀ (rows : List (Option String × List (ℕ × ℤ))) (m : List ℕ),
      matchingCost rows m = - matchingWeight rows m := by
  intro rows
  induction rows with
  | nil => intro m; simp [matchingCost, matchingWeight]
  | cons r rows ih =>
    intro m
    cases m with
    | nil => simp [matchingCost, matchingWeight]
    | cons c m =>
      show -(wget r.2 c) + matchingCost rows m
          = -(wget r.2 c + matchingWeight rows m)
      rw [ih m, neg_add]

theorem lmax_cons_le {x : Option String × List (ℕ × ℤ)}
    {l1 l2 : List (Option String × List (ℕ × ℤ))}
    (hih : ∀ cols2 : List ℕ, cols2.Nodup →
      lmax ((colMatchings l1.length cols2).map (matchingWeight l1))
        = lmax ((colMatchings l2.length cols2).map (matchingWeight l2)))
    (cols : List ℕ) (hnd : cols.Nodup) :
    lmax ((colMatchings (x :: l1).length cols).map (matchingWeight (x :: l1)))
      ≤ lmax ((colMatchings (x :: l2).length cols).map (matchingWeight (x :: l2))) := by
  apply lmax_le_lmax_of_dominated
  intro a ha
  rw [List.mem_map] at ha
  obtain ⟨m, hm, rfl⟩ := ha
  rw [List.length_cons] at hm
  obtain ⟨c, hc, m1, hm1, heq⟩ := mem_colMatchings_succ.mp hm
  subst heq
  have h1 : matchingWeight l1 m1
      ∈ (colMatchings l1.length (cols.erase c)).map (matchingWeight l1) :=
    List.mem_map.mpr ⟨m1, hm1, rfl⟩
  have h2 := le_lmax_of_mem h1
  rw [hih (cols.erase c) (hnd.erase c)] at h2
  obtain ⟨b, hb, hle⟩ := exists_mem_le_of_le_lmax h2
  rw [List.mem_map] at hb
  obtain ⟨m2, hm2, rfl⟩ := hb
  refine ⟨matchingWeight (x :: l2) (c :: m2), ?_, ?_⟩
  · apply List.mem_map.mpr
    refine ⟨c :: m2, ?_, rfl⟩
    rw [List.length_cons]
    exact mem_colMatchings_succ.mpr ⟨c, hc, m2, hm2, rfl⟩
  · rw [matchingWeight_cons, matchingWeight_cons]
    exact add_le_add_left hle _

theorem lmax_swap_le (x y : Option String × List (ℕ × ℤ))
    (l : List (Option String × List (ℕ × ℤ)))
    (cols : List ℕ) (hnd : cols.Nodup) :
    lmax ((colMatchings (y :: x :: l).length cols).map (matchingWeight (y :: x :: l)))
      ≤ lmax ((colMatchings (x :: y :: l).length cols).map (matchingWeight (x :: y :: l))) := by
  apply lmax_le_lmax_of_dominated
  intro a ha
  rw [List.mem_map] at ha
  obtain ⟨m, hm, rfl⟩ := ha
  rw [List.length_cons, List.length_cons] at hm
  obtain ⟨c1, hc1, m1, hm1, heq⟩ := mem_colMatchings_succ.mp hm
  subst heq
  obtain ⟨c2, hc2, m2, hm2, heq⟩ := mem_colMatchings_succ.mp hm1
  subst heq
  have hne : c2 ≠ c1 := ((hnd.mem_erase_iff).mp hc2).1
  have hc2cols : c2 ∈ cols := List.mem_of_mem_erase hc2
  have hc1in : c1 ∈ cols.erase c2 :=
    (hnd.mem_erase_iff).mpr ⟨fun h => hne h.symm, hc1⟩
  have herasecomm : (cols.erase c1).erase c2 = (cols.erase c2).erase c1 :=
    List.erase_comm c1 c2 cols
  refine ⟨matchingWeight (x :: y :: l) (c2 :: c1 :: m2), ?_, ?_⟩
  · apply List.mem_map.mpr
    refine ⟨c2 :: c1 :: m2, ?_, rfl⟩
    rw [List.length_cons, List.length_cons]
    apply mem_colMatchings_succ.mpr
    refine ⟨c2, hc2cols, c1 :: m2, ?_, rfl⟩
    apply mem_colMatchings_succ.mpr
    refine ⟨c1, hc1in, m2, ?_, rfl⟩
    rw [← herasecomm]
    exact hm2
  · rw [matchingWeight_cons, matchingWeight_cons,
      matchingWeight_cons, matchingWeight_cons]
    rw [add_left_comm]

/-- Permuting the rows does not change the optimal achievable total weight:
the optimum over all row→column bijections depends only on the multiset of
rows. -/
theorem lmax_colMatchings_perm
    {rows1 rows2 : List (Option String × List (ℕ × ℤ))} (hp : rows1.Perm rows2) :
    ∀ (cols : List ℕ), cols.Nodup →
      lmax ((colMatchings rows1.length cols).map (matchingWeight rows1))
        = lmax ((colMatchings rows2.length cols).map (matchingWeight rows2)) := by
  induction hp with
  | nil => intro cols _; rfl
  | cons x h ih =>
    intro cols hnd
    exact le_antisymm (lmax_cons_le ih cols hnd)
      (lmax_cons_le (fun c2 h2 => (ih c2 h2).symm) cols hnd)
  | swap x y l =>
    intro cols hnd
    exact le_antisymm (lmax_swap_le x y l cols hnd) (lmax_swap_le y x l cols hnd)
  | trans h1 h2 ih1 ih2 =>
    intro cols hnd
    rw [ih1 cols hnd, ih2 cols hnd]

/-- `Prefs.solve`, as a function of the post-shuffle participant list `order`
(`random.shuffle` makes `order` an arbitrary permutation of `users`): build
the weight rows, pad to a square matrix, fail if the matrix cannot be square
(`assert len(students) == size`), run the (modelled) optimal assignment engine
on cost `-weight`, and keep only rows with a real name. -/
def solveWith (topics : List String) (order : List (String × List ℕ)) :
    Except String (List (String × ℕ)) :=
  if (paddedStudents topics order).length ≠ topics.length then
    .error "More students than topics"
  else
    match argminBy (matchingCost (paddedStudents topics order))
        (colMatchings topics.length (List.range topics.length)) with
    | none => .error "Not all students could be assigned to a presentation"
    | some m => .ok (((paddedStudents topics order).zip m).filterMap
        (fun rc => rc.1.1.map (fun n => (n, rc.2))))

theorem paddedStudents_length {topics : List String}
    {order : List (String × List ℕ)} (h : order.length ≤ topics.length) :
    (paddedStudents topics order).length = topics.length := by
  unfold paddedStudents realStudents ghostRows
  rw [List.length_append, List.length_map, List.length_replicate]
  omega

/-- C5: when participants outnumber topics no padding happens
(`max(0, size - len(students)) = 0`), the square-matrix assertion fails, and
`solve` stops with the fatal error before any matching is attempted,
returning no assignment at all. -/
theorem solveWith_infeasible (topics : List String)
    (users order : List (String × List ℕ)) (hperm : order.Perm users)
    (hgt : topics.length < users.length) :
    solveWith topics order = .error "More students than topics" := by
  have hlen : order.length = users.length := hperm.length_eq
  have hpad : (paddedStudents topics order).length = order.length := by
    unfold paddedStudents realStudents ghostRows
    rw [List.length_append, List.length_map, List.length_replicate]
    omega
  unfold solveWith
  rw [if_pos (show (paddedStudents topics order).length ≠ topics.length by
    rw [hpad, hlen]; omega)]

/-- Witness for C5: 2 topics, 3 participants. -/
theorem solveWith_infeasible_witness :
    (["T1", "T2"] : List String).length
        < ([("u@x.com", [0]), ("v@x.com", [1]), ("w@x.com", [0])]
            : List (String × List ℕ)).length ∧
    solveWith ["T1", "T2"] [("u@x.com", [0]), ("v@x.com", [1]), ("w@x.com", [0])]
      = .error "More students than topics" :=
  ⟨by decide,
    solveWith_infeasible ["T1", "T2"] _ _
      (List.Perm.refl [("u@x.com", [0]), ("v@x.com", [1]), ("w@x.com", [0])])
      (by decide)⟩

theorem zip_append_of_length_eq {α β : Type} :
    ∀ (A B : List α) (m1 m2 : List β), A.length = m1.length →
      (A ++ B).zip (m1 ++ m2) = A.zip m1 ++ B.zip m2 := by
  intro A
  induction A with
  | nil =>
    intro B m1 m2 h
    cases m1 with
    | nil => simp
    | cons c m1 => simp at h
  | cons a A ih =>
    intro B m1 m2 h
    cases m1 with
    | nil => simp at h
    | cons c m1 =>
      simp only [List.cons_append, List.zip_cons_cons]
      rw [ih B m1 m2 (by simpa using h)]

theorem filterMap_zip_real (size : ℕ) :
    ∀ (order : List (String × List ℕ)) (ml : List ℕ),
      ((realStudents size order).zip ml).filterMap
          (fun rc => rc.1.1.map (fun n => (n, rc.2)))
        = List.zipWith (fun (u : String × List ℕ) c => (u.1, c)) order ml := by
  intro order
  induction order with
  | nil => intro ml; simp [realStudents]
  | cons u order ih =>
    intro ml
    cases ml with
    | nil => simp [realStudents]
    | cons c ml =>
      simp only [realStudents, List.map_cons, List.zip_cons_cons,
        List.filterMap_cons, List.zipWith_cons_cons]
      rw [← realStudents]
      rw [ih ml]
      rfl

theorem filterMap_zip_ghost :
    ∀ (k : ℕ) (ml : List ℕ),
      ((ghostRows k).zip ml).filterMap
          (fun rc => rc.1.1.map (fun n => (n, rc.2))) = [] := by
  intro k
  induction k with
  | zero => intro ml; simp [ghostRows]
  | succ k ih =>
    intro ml
    cases ml with
    | nil => simp [ghostRows]
    | cons c ml =>
      simp only [ghostRows, List.replicate_succ, List.zip_cons_cons,
        List.filterMap_cons]
      rw [← ghostRows]
      exact ih ml

theorem map_fst_zipWith_pair :
    ∀ (order : List (String × List ℕ)) (ml : List ℕ), order.length ≤ ml.length →
      (List.zipWith (fun (u : String × List ℕ) c => (u.1, c)) order ml).map Prod.fst
        = order.map Prod.fst := by
  intro order
  induction order with
  | nil => intro ml _; simp
  | cons u order ih =>
    intro ml h
    cases ml with
    | nil => simp at h
    | cons c ml =>
      simp only [List.zipWith_cons_cons, List.map_cons]
      rw [ih ml (by simpa using h)]

theorem map_snd_zipWith_pair :
    ∀ (order : List (String × List ℕ)) (ml : List ℕ),
      (List.zipWith (fun (u : String × List ℕ) c => (u.1, c)) order ml).map Prod.snd
        = ml.take order.length := by
  intro order
  induction order with
  | nil => intro ml; simp
  | cons u order ih =>
    intro ml
    cases ml with
    | nil => simp
    | cons c ml =>
      simp only [List.zipWith_cons_cons, List.map_cons, List.length_cons,
        List.take_succ_cons]
      rw [ih ml]

/-- The successful-solve decomposition shared by the C1 and C4 arguments. -/
theorem solveWith_ok_shape (topics : List String)
    (order : List (String × List ℕ)) (hfeas : order.length ≤ topics.length) :
    ∃ m, argminBy (matchingCost (paddedStudents topics order))
          (colMatchings topics.length (List.range topics.length)) = some m ∧
      m ∈ colMatchings topics.length (List.range topics.length) ∧
      m.length = topics.length ∧ m.Nodup ∧
      solveWith topics order
        = .ok (List.zipWith (fun (u : String × List ℕ) c => (u.1, c)) order
            (m.take order.length)) := by
  have hpadlen := paddedStudents_length hfeas
  obtain ⟨m, hm⟩ := argminBy_eq_some (matchingCost (paddedStudents topics order))
    (colMatchings topics.length (List.range topics.length))
    (colMatchings_ne_nil topics.length (List.range topics.length)
      (by rw [List.length_range]))
  have hmem := argminBy_mem hm
  have hmlen := length_of_mem_colMatchings topics.length (List.range topics.length) m hmem
  have hmnd := (colMatchings_nodup topics.length (List.range topics.length) m
    (List.nodup_range topics.length) hmem).1
  refine ⟨m, hm, hmem, hmlen, hmnd, ?_⟩
  unfold solveWith
  rw [if_neg (show ¬((paddedStudents topics order).length ≠ topics.length) by
    rw [hpadlen]; exact fun hc => hc rfl)]
  rw [hm]
  dsimp only
  congr 1
  have horder : order.length ≤ m.length := by omega
  have hsplit : m = m.take order.length ++ m.drop order.length :=
    (List.take_append_drop order.length m).symm
  have hreal : (realStudents topics.length order).length
      = (m.take order.length).length := by
    rw [List.length_take]
    unfold realStudents
    rw [List.length_map]
    omega
  conv_lhs =>
    rw [show paddedStudents topics order
        = realStudents topics.length order
          ++ ghostRows (topics.length - order.length) from rfl]
    rw [hsplit]
  rw [zip_append_of_length_eq _ _ _ _ hreal, List.filterMap_append,
    filterMap_zip_real, filterMap_zip_ghost, List.append_nil]

/-- C4: with `participants ≤ topics`, `solve` pads with exactly
`topics − participants` ghost rows `(None, {})`, succeeds, and the returned
mapping contains exactly the real participants (its keys are the participant
names, a permutation of the store's), each assigned a distinct topic index;
no ghost appears in the output. -/
theorem solveWith_padding (topics : List String)
    (users order : List (String × List ℕ)) (hperm : order.Perm users)
    (hfeas : users.length ≤ topics.length) :
    paddedStudents topics order
      = realStudents topics.length order
        ++ List.replicate (topics.length - order.length)
            ((none : Option String), ([] : List (ℕ × ℤ))) ∧
    ∃ sol, solveWith topics order = .ok sol ∧
      sol.map Prod.fst = order.map Prod.fst ∧
      (sol.map Prod.fst).Perm (users.map Prod.fst) ∧
      (sol.map Prod.snd).Nodup := by
  have hlen : order.length = users.length := hperm.length_eq
  have hfeas2 : order.length ≤ topics.length := by omega
  obtain ⟨m, _, _, hmlen, hmnd, hsol⟩ := solveWith_ok_shape topics order hfeas2
  refine ⟨rfl, _, hsol, ?_, ?_, ?_⟩
  · apply map_fst_zipWith_pair
    rw [List.length_take]
    omega
  · rw [map_fst_zipWith_pair order (m.take order.length)
      (by rw [List.length_take]; omega)]
    exact hperm.map Prod.fst
  · rw [map_snd_zipWith_pair]
    exact hmnd.sublist ((List.take_sublist _ _).trans (List.take_sublist _ _))

/-- Witness for C4: 5 topics, 3 participants. -/
theorem solveWith_padding_witness :
    paddedStudents ["T1", "T2", "T3", "T4", "T5"]
        [("u@x.com", [2, 0]), ("v@x.com", [2]), ("w@x.com", [4, 1])]
      = realStudents 5 [("u@x.com", [2, 0]), ("v@x.com", [2]), ("w@x.com", [4, 1])]
        ++ List.replicate 2 ((none : Option String), ([] : List (ℕ × ℤ))) ∧
    ∃ sol, solveWith ["T1", "T2", "T3", "T4", "T5"]
        [("u@x.com", [2, 0]), ("v@x.com", [2]), ("w@x.com", [4, 1])] = .ok sol ∧
      sol.map Prod.fst = ["u@x.com", "v@x.com", "w@x.com"] ∧
      (sol.map Prod.fst).Perm ["u@x.com", "v@x.com", "w@x.com"] ∧
      (sol.map Prod.snd).Nodup :=
  solveWith_padding ["T1", "T2", "T3", "T4", "T5"]
    [("u@x.com", [2, 0]), ("v@x.com", [2]), ("w@x.com", [4, 1])]
    [("u@x.com", [2, 0]), ("v@x.com", [2]), ("w@x.com", [4, 1])]
    (List.Perm.refl _) (by decide)

theorem matchingWeight_append :
    ∀ (A B : List (Option String × List (ℕ × ℤ))) (m : List ℕ),
      matchingWeight (A ++ B) m
        = matchingWeight A (m.take A.length) + matchingWeight B (m.drop A.length) := by
  intro A
  induction A with
  | nil => intro B m; simp [matchingWeight]
  | cons a A ih =>
    intro B m
    cases m with
    | nil => simp [matchingWeight]
    | cons c m =>
      simp only [List.cons_append, List.length_cons, List.take_succ_cons,
        List.drop_succ_cons]
      rw [matchingWeight_cons, matchingWeight_cons, ih, add_assoc]

theorem matchingWeight_ghost :
    ∀ (k : ℕ) (ml : List ℕ), matchingWeight (ghostRows k) ml = 0 := by
  intro k
  induction k with
  | zero => intro ml; simp [ghostRows, matchingWeight]
  | succ k ih =>
    intro ml
    cases ml with
    | nil => simp [matchingWeight]
    | cons c ml =>
      show matchingWeight ((none, []) :: ghostRows k) (c :: ml) = 0
      rw [matchingWeight_cons, ih]
      simp [wget, dlookup]

theorem solTotal_zipWith (size : ℕ) (users : List (String × List ℕ)) :
    ∀ (order : List (String × List ℕ)) (ml : List ℕ),
      (∀ u ∈ order, dlookup u.1 users = some u.2) →
      ((List.zipWith (fun (u : String × List ℕ) c => (u.1, c)) order ml).map
          (fun p => wget (ranksToWeights size ((dlookup p.1 users).getD [])) p.2)).sum
        = matchingWeight (realStudents size order) ml := by
  intro order
  induction order with
  | nil => intro ml _; simp [realStudents, matchingWeight]
  | cons u order ih =>
    intro ml hlk
    cases ml with
    | nil => simp [realStudents, matchingWeight]
    | cons c ml =>
      simp only [List.zipWith_cons_cons, List.map_cons, List.sum_cons]
      rw [show realStudents size (u :: order)
          = (some u.1, ranksToWeights size u.2) :: realStudents size order from rfl]
      rw [matchingWeight_cons]
      rw [hlk u (List.mem_cons_self u order)]
      simp only [Option.getD_some]
      congr 1
      exact ih ml (fun v hv => hlk v (List.mem_cons_of_mem u hv))

/-- The maximum total weight achievable over all bijections between the padded
participant rows (in store order) and the topics. -/
def optTotal (topics : List String) (users : List (String × List ℕ)) : WithBot ℤ :=
  lmax ((colMatchings topics.length (List.range topics.length)).map
    (matchingWeight (paddedStudents topics users)))

/-- The total preference weight of a returned assignment: each participant
contributes the weight their own ranking gives the topic they received. -/
def solTotalWeight (topics : List String) (users : List (String × List ℕ))
    (sol : List (String × ℕ)) : ℤ :=
  (sol.map (fun p =>
    wget (ranksToWeights topics.length ((dlookup p.1 users).getD [])) p.2)).sum

/-- C1: on every feasible instance (participants ≤ topics) and whatever
permutation the shuffle produced, `solve` succeeds and the total preference
weight of its assignment equals the maximum total weight achievable over all
bijections between the padded participant rows and the topics — a global
optimum whose value does not depend on the random participant ordering. -/
theorem solveWith_optimal (topics : List String)
    (users order : List (String × List ℕ))
    (hnd : (users.map Prod.fst).Nodup)
    (hfeas : users.length ≤ topics.length) (hperm : order.Perm users) :
    ∃ sol, solveWith topics order = .ok sol ∧
      (solTotalWeight topics users sol : WithBot ℤ) = optTotal topics users := by
  have hlen : order.length = users.length := hperm.length_eq
  have hfeas2 : order.length ≤ topics.length := by omega
  obtain ⟨m, hargmin, hmem, hmlen, hmnd, hsol⟩ := solveWith_ok_shape topics order hfeas2
  refine ⟨_, hsol, ?_⟩
  have hlk : ∀ u ∈ order, dlookup u.1 users = some u.2 :=
    fun u hu => dlookup_eq_of_mem_of_nodup hnd (hperm.subset hu)
  have h1 : solTotalWeight topics users
      (List.zipWith (fun (u : String × List ℕ) c => (u.1, c)) order
        (m.take order.length))
      = matchingWeight (realStudents topics.length order) (m.take order.length) :=
    solTotal_zipWith topics.length users order (m.take order.length) hlk
  have h2 : matchingWeight (paddedStudents topics order) m
      = matchingWeight (realStudents topics.length order) (m.take order.length) := by
    have happ := matchingWeight_append (realStudents topics.length order)
      (ghostRows (topics.length - order.length)) m
    rw [matchingWeight_ghost] at happ
    rw [show (realStudents topics.length order).length = order.length by
      unfold realStudents; rw [List.length_map]] at happ
    rw [show paddedStudents topics order
        = realStudents topics.length order
          ++ ghostRows (topics.length - order.length) from rfl]
    rw [happ, add_zero]
  have hopt : lmax ((colMatchings topics.length (List.range topics.length)).map
      (matchingWeight (paddedStudents topics order)))
      = ((matchingWeight (paddedStudents topics order) m : ℤ) : WithBot ℤ) := by
    apply lmax_eq_coe
    · exact List.mem_map.mpr ⟨m, hmem, rfl⟩
    · intro a ha
      rw [List.mem_map] at ha
      obtain ⟨m2, hm2, rfl⟩ := ha
      have hcost := argminBy_le hargmin m2 hm2
      rw [matchingCost_eq_neg, matchingCost_eq_neg] at hcost
      omega
  have hpermpad : (paddedStudents topics order).Perm (paddedStudents topics users) := by
    rw [show paddedStudents topics order
        = realStudents topics.length order
          ++ ghostRows (topics.length - order.length) from rfl]
    rw [show paddedStudents topics users
        = realStudents topics.length users
          ++ ghostRows (topics.length - users.length) from rfl]
    have hg : topics.length - order.length = topics.length - users.length := by
      rw [hlen]
    rw [hg]
    exact (hperm.map _).append_right _
  have hinv := lmax_colMatchings_perm hpermpad (List.range topics.length)
    (List.nodup_range _)
  rw [paddedStudents_length hfeas2, paddedStudents_length hfeas] at hinv
  rw [h1.trans h2.symm]
  exact hopt.symm.trans hinv

/-- Witness for C1: a concrete feasible 2-topic, 2-participant instance. -/
theorem solveWith_optimal_witness :
    ∃ sol, solveWith ["A", "B"] [("u@x.com", [1]), ("v@x.com", [0, 1])] = .ok sol ∧
      (solTotalWeight ["A", "B"] [("u@x.com", [1]), ("v@x.com", [0, 1])] sol
          : WithBot ℤ)
        = optTotal ["A", "B"] [("u@x.com", [1]), ("v@x.com", [0, 1])] :=
  solveWith_optimal ["A", "B"] [("u@x.com", [1]), ("v@x.com", [0, 1])]
    [("u@x.com", [1]), ("v@x.com", [0, 1])] (by decide) (by decide)
    (List.Perm.refl _)

/-! ## The `--similarity` option (`main`) -/

/-- C6 (code bug): `main` validates `--similarity` in [0.7, 1.0], but its
assignment `jaro_winkler_threshold = args.similarity` binds a fresh local of
`main`, so token resolution keeps comparing scores against the module-level
0.95 whatever option was passed: with the valid setting 0.8, a single-topic
token scoring 0.9 still fails to resolve under the threshold actually used,
although it resolves under the threshold the claim says is in effect. -/
theorem mainThreshold_ignored :
    similarityValid (mkRat 8 10) ∧
    (∀ t : ℚ, mainThresholdUsed t = jaroWinklerThreshold) ∧
    indexTopic (fun _ _ => mkRat 9 10) (mainThresholdUsed (mkRat 8 10))
        "Alphax" ["Alpha"] = none ∧
    indexTopic (fun _ _ => mkRat 9 10) (mkRat 8 10) "Alphax" ["Alpha"] = some 0 := by
  refine ⟨?_, fun t => rfl, ?_, ?_⟩
  · unfold similarityValid
    exact ⟨by decide, by decide⟩
  · decide
  · decide
